import Mathlib

/-!
# Hierarchical Content Store + Link Index: a shallow embedding

This file embeds the node repository (`src-tauri/src/services/database/nodes.rs`),
the schema-level cascades (`schema.rs`), the transaction primitive
(`connection.rs`) and the link service (`link_service.rs`) of the Note
application, and proves or refutes the frozen claims about them.

The SQLite database is modelled as a `Store`: the `nodes` table is a list of
`Row`s in rowid (insertion) order, the `node_links` table a list of
`(source, target)` pairs.  Unordered SQL scans traverse the list in order;
`LIMIT 1` without `ORDER BY` returns the first row in table order, matching
SQLite's table-scan behaviour.  `DateTime<Utc>` values are modelled as `Int`
instants supplied by the caller (the code obtains them from `Utc::now()`).
-/

namespace NoteApp

/-- `serde_json::Value` restricted to the shapes the node layer actually stores
(`get_or_create_daily_note` inserts string values only). -/
inductive JsonVal where
  | str (s : String)
  | num (n : Int)
  | other
deriving DecidableEq, Repr

/-- One row of the `nodes` table (see `initialize_schema` in `schema.rs`):
id, content, parent_id, order_index, properties, tags, created_at,
updated_at, created_by, version.  `properties`/`tags` are stored serialized;
we keep the structured value (serialization of these values cannot fail). -/
structure Row where
  id : String
  content : String
  parent_id : Option String
  order : Int
  properties : List (String × JsonVal)
  tags : List String
  created_at : Int
  updated_at : Int
  created_by : String
  version : Int
deriving DecidableEq, Repr

/-- The database: `nodes` and `node_links` tables, lists in rowid order. -/
structure Store where
  nodes : List Row
  edges : List (String × String)
deriving DecidableEq, Repr

/-- The error kinds of `errors/app_error.rs` reachable from the node layer,
plus `FileNotFound`, the repository's only "not found" kind (used by the
page/block layer in `services/database.rs`). -/
inductive AppError where
  | DatabaseConnectionFailed (msg : String)
  | DatabaseQueryFailed (msg : String)
  | FileNotFound (msg : String)
  | Internal (msg : String)
  | SerializationError (msg : String)
deriving DecidableEq, Repr

/-- Does an `AppError` carry the repository's "not found" kind? -/
def AppError.isNotFoundKind : AppError → Bool
  | .FileNotFound _ => true
  | _ => false

/-- `models/node.rs` `Node`: a row hydrated with its (derived) children ids. -/
structure Node where
  id : String
  content : String
  parent_id : Option String
  children : List String
  order : Int
  properties : List (String × JsonVal)
  tags : List String
  created_at : Int
  updated_at : Int
  created_by : String
  version : Int
deriving DecidableEq, Repr

/-- Hydrate a row into a `Node` with the given children list. -/
def Row.toNode (r : Row) (children : List String) : Node :=
  { id := r.id, content := r.content, parent_id := r.parent_id,
    children := children, order := r.order, properties := r.properties,
    tags := r.tags, created_at := r.created_at, updated_at := r.updated_at,
    created_by := r.created_by, version := r.version }

/-- `models/node.rs` `CreateNodeRequest`. -/
structure CreateNodeRequest where
  content : String
  parent_id : Option String
  order : Option Int
  properties : Option (List (String × JsonVal))
  tags : Option (List String)

/-- `models/node.rs` `UpdateNodeRequest`: every field optional, absence means
"leave unchanged". -/
structure UpdateNodeRequest where
  content : Option String
  parent_id : Option String
  order : Option Int
  properties : Option (List (String × JsonVal))
  tags : Option (List String)

/-- The ids stored in the `nodes` table, in table order. -/
def ids (st : Store) : List String := st.nodes.map (·.id)

/-- `SELECT ... FROM nodes WHERE id = ?` (primary-key lookup). -/
def findRowById (nodes : List Row) (node_id : String) : Option Row :=
  nodes.find? (fun r => r.id == node_id)

/-- ASCII lower-casing, as SQLite's default `LIKE` applies to A-Z. -/
def lowerChar (c : Char) : Char :=
  if 'A' ≤ c ∧ c ≤ 'Z' then Char.ofNat (c.toNat + 32) else c

/-- Fuel-indexed SQL `LIKE` matcher over char lists: `%` matches any sequence,
`_` any single character, other characters literally.  The fuel only serves
termination; `p.length + t.length + 1` always suffices (each step shrinks
`p.length + t.length`). -/
def likeGo : Nat → List Char → List Char → Bool
  | 0, _, _ => false
  | f + 1, p, t =>
    match p with
    | [] => t.isEmpty
    | c :: p' =>
      if c = '%' then
        likeGo f p' t ||
          (match t with
           | [] => false
           | _ :: t' => likeGo f ('%' :: p') t')
      else
        match t with
        | [] => false
        | d :: t' => (if c = '_' then true else c == d) && likeGo f p' t'

/-- SQLite `text LIKE pattern` with default (ASCII case-insensitive) collation. -/
def sqlLike (pattern text : String) : Bool :=
  likeGo (pattern.length + text.length + 1)
    (pattern.data.map lowerChar) (text.data.map lowerChar)

/-- `ORDER BY order_index`: a stable sort on the `order` key; SQLite returns
equal-key rows in table (rowid) order here, since the scan is over
`(parent_id, order_index)` index entries which tie-break by rowid.
Insertion sort with `≤` is stable. -/
def sortByOrder (l : List Row) : List Row :=
  List.insertionSort (fun a b => a.order ≤ b.order) l

instance : IsTotal Row (fun a b => a.order ≤ b.order) :=
  ⟨fun a b => Int.le_total a.order b.order⟩

instance : IsTrans Row (fun a b => a.order ≤ b.order) :=
  ⟨fun _ _ _ hab hbc => le_trans hab hbc⟩

/-- `s'` can be reached from `s` without clearing any row's parent: every
row that is parentless in `s'` descends from a row of `s` with the same id
that was already parentless. -/
def ParentPreserved (s s' : Store) : Prop :=
  ∀ r' ∈ s'.nodes, r'.parent_id = none →
    ∃ r, r ∈ s.nodes ∧ r.id = r'.id ∧ r.parent_id = none

/-- `SELECT id FROM nodes WHERE parent_id = ? ORDER BY order_index`
(child-id query of `get_node`). -/
def childIdsOrdered (nodes : List Row) (p : String) : List String :=
  (sortByOrder (nodes.filter (fun r => r.parent_id == some p))).map (·.id)

/-- `SELECT id FROM nodes WHERE parent_id = ?` without `ORDER BY`
(child query of `get_root_nodes` / `get_all_nodes`), table order. -/
def childIdsUnordered (nodes : List Row) (p : String) : List String :=
  (nodes.filter (fun r => r.parent_id == some p)).map (·.id)

/-- `nodes.rs` `get_node`: fetch the row by id (`fetch_one`, whose
`RowNotFound` is mapped by `AppError::from`/`map_err` to
`DatabaseQueryFailed`), then hydrate the children ids ordered by
`order_index`.  A pure read: it does not change the store. -/
def get_node (st : Store) (node_id : String) : Except AppError Node :=
  match findRowById st.nodes node_id with
  | none => .error (.DatabaseQueryFailed "no rows returned by a query that expected to return at least one row")
  | some r => .ok (r.toNode (childIdsOrdered st.nodes node_id))

/-- Does assigning `newParent` to the row `node_id` violate the schema's
`FOREIGN KEY (parent_id) REFERENCES nodes(id)`?  The medium checks the
constraint only when a row is actually updated. -/
def fkViolation (nodes : List Row) (node_id : String)
    (newParent : Option String) : Bool :=
  match newParent with
  | some p => (findRowById nodes node_id).isSome && (findRowById nodes p).isNone
  | none => false

/-- The row `create_node` INSERTs: the request's fields with default `order`
0 when unspecified, the placeholder `created_by = "default_user"`, the
schema default `version = 1`, and both timestamps set to `now`. -/
def newRowOf (req : CreateNodeRequest) (node_id : String) (now : Int) : Row :=
  { id := node_id, content := req.content, parent_id := req.parent_id,
    order := req.order.getD 0, properties := req.properties.getD [],
    tags := req.tags.getD [], created_at := now, updated_at := now,
    created_by := "default_user", version := 1 }

/-- `nodes.rs` `create_node`: INSERT the `newRowOf` row, then `get_node`.
The medium enforces the PRIMARY KEY on `id` and the FOREIGN KEY
`parent_id REFERENCES nodes(id)`; a violation surfaces as
`DatabaseQueryFailed` and nothing is written. -/
def create_node (st : Store) (req : CreateNodeRequest) (node_id : String)
    (now : Int) : Except AppError Node × Store :=
  if (findRowById st.nodes node_id).isSome then
    (.error (.DatabaseQueryFailed "UNIQUE constraint failed: nodes.id"), st)
  else if (match req.parent_id with
           | some p => (findRowById st.nodes p).isNone
           | none => false) then
    (.error (.DatabaseQueryFailed "FOREIGN KEY constraint failed"), st)
  else
    let st' : Store := { st with nodes := st.nodes ++ [newRowOf req node_id now] }
    (get_node st' node_id, st')

/-- `UPDATE nodes SET ... WHERE id = ?`: apply `f` to the matching row. -/
def updRow (st : Store) (node_id : String) (f : Row → Row) : Store :=
  { st with nodes := st.nodes.map (fun r => if r.id == node_id then f r else r) }

/-- Does an `UpdateNodeRequest` carry any field?  Mirrors the guard
`request.content.is_some() || request.parent_id.is_some() || ...`
in `update_node`. -/
def UpdateNodeRequest.hasField (req : UpdateNodeRequest) : Bool :=
  req.content.isSome || req.parent_id.isSome || req.order.isSome ||
    req.properties.isSome || req.tags.isSome

/-- `UPDATE nodes SET content = ?, updated_at = ? WHERE id = ?`, run only
when the request carries a content. -/
def applyContent (st : Store) (node_id : String) (now : Int) :
    Option String → Store
  | some c => updRow st node_id (fun r => { r with content := c, updated_at := now })
  | none => st

/-- `UPDATE nodes SET parent_id = ?, updated_at = ? WHERE id = ?`, run only
when the request carries a parent id (which is then always `some`). -/
def applyParent (st : Store) (node_id : String) (now : Int) :
    Option String → Store
  | some p => updRow st node_id (fun r => { r with parent_id := some p, updated_at := now })
  | none => st

/-- `UPDATE nodes SET order_index = ?, updated_at = ? WHERE id = ?`. -/
def applyOrder (st : Store) (node_id : String) (now : Int) :
    Option Int → Store
  | some o => updRow st node_id (fun r => { r with order := o, updated_at := now })
  | none => st

/-- `UPDATE nodes SET properties = ?, updated_at = ? WHERE id = ?`. -/
def applyProps (st : Store) (node_id : String) (now : Int) :
    Option (List (String × JsonVal)) → Store
  | some ps => updRow st node_id (fun r => { r with properties := ps, updated_at := now })
  | none => st

/-- `UPDATE nodes SET tags = ?, updated_at = ? WHERE id = ?`. -/
def applyTags (st : Store) (node_id : String) (now : Int) :
    Option (List String) → Store
  | some ts => updRow st node_id (fun r => { r with tags := ts, updated_at := now })
  | none => st

/-- `nodes.rs` `update_node`.  The dynamically built `query_builder` string in
the source is dead code (never executed); the executed path is the chain of
per-field statements, run only under the `hasField` guard, followed by one
`UPDATE nodes SET version = version + 1 WHERE id = ?`.  Each per-field
statement also rewrites `updated_at`.  A present `parent_id` naming a
nonexistent node trips the FOREIGN KEY check (when the target row exists, so
that a row is actually updated); the `?` operator then aborts, the dropped
transaction rolls back, and the store is left unchanged.  On success the
transaction commits and the node is re-read. -/
def update_node (st : Store) (node_id : String) (req : UpdateNodeRequest)
    (now : Int) : Except AppError Node × Store :=
  if req.hasField then
    if fkViolation st.nodes node_id req.parent_id then
      (.error (.DatabaseQueryFailed "FOREIGN KEY constraint failed"), st)
    else
      let st1 := applyContent st node_id now req.content
      let st2 := applyParent st1 node_id now req.parent_id
      let st3 := applyOrder st2 node_id now req.order
      let st4 := applyProps st3 node_id now req.properties
      let st5 := applyTags st4 node_id now req.tags
      let st6 := updRow st5 node_id (fun r => { r with version := r.version + 1 })
      (get_node st6 node_id, st6)
  else
    (get_node st node_id, st)

/-- `nodes.rs` `move_node`: one unconditional
`UPDATE nodes SET parent_id = ?, order_index = ?, updated_at = ?,
version = version + 1 WHERE id = ?` followed by `get_node`.  There is no
ancestor-chain walk and no cycle check anywhere in the repository, and no
`CyclicMoveError` kind exists in `app_error.rs`.  The only way the statement
fails is the FOREIGN KEY check on a nonexistent `new_parent_id` (checked by
the medium when a row is actually updated). -/
def move_node (st : Store) (node_id : String) (new_parent_id : Option String)
    (new_order : Int) (now : Int) : Except AppError Node × Store :=
  if fkViolation st.nodes node_id new_parent_id then
    (.error (.DatabaseQueryFailed "FOREIGN KEY constraint failed"), st)
  else
    let st' := updRow st node_id (fun r =>
      { r with parent_id := new_parent_id, order := new_order,
               updated_at := now, version := r.version + 1 })
    (get_node st' node_id, st')

/-- `nodes.rs` `get_root_nodes`:
`SELECT ... WHERE parent_id IS NULL ORDER BY order_index`, each root hydrated
with its children ids fetched *without* `ORDER BY` (table order). -/
def get_root_nodes (st : Store) : List Node :=
  (sortByOrder (st.nodes.filter (fun r => r.parent_id == none))).map
    (fun r => r.toNode (childIdsUnordered st.nodes r.id))

/-- The daily-note title prefix `format!("Daily Note - {}", date)`. -/
def dailyTitle (date : String) : String := "Daily Note - " ++ date

/-- The `CreateNodeRequest` the daily-note creation path builds: the title
as content, root placement, order 0, the `type`/`date` properties and the
`daily`/`journal` tags. -/
def dailyNoteRequest (date : String) : CreateNodeRequest :=
  { content := dailyTitle date, parent_id := none, order := some 0,
    properties := some [("type", .str "daily_note"), ("date", .str date)],
    tags := some ["daily", "journal"] }

/-- `nodes.rs` `get_or_create_daily_note`: look up
`SELECT id FROM nodes WHERE content LIKE 'Daily Note - {date}%' LIMIT 1`
(first matching row in table order); on a hit, re-read that node; otherwise
create a fresh root node titled `Daily Note - {date}` with the daily-note
properties and tags.  `fresh_id` stands for the random `generate_id()` value
of the creation path. -/
def get_or_create_daily_note (st : Store) (date : String) (fresh_id : String)
    (now : Int) : Except AppError Node × Store :=
  match st.nodes.find? (fun r => sqlLike (dailyTitle date ++ "%") r.content) with
  | some r => (get_node st r.id, st)
  | none => create_node st (dailyNoteRequest date) fresh_id now

/-- `DELETE FROM nodes WHERE id = ?` plus the schema-level
`ON DELETE CASCADE` of `node_links` (both `source_node_id` and
`target_node_id` reference `nodes(id)`): the row goes, and every edge
incident to it goes with it.  (The `nodes.parent_id` cascade is a no-op at
this point: `delete_node`'s explicit recursion has already removed every
child row before the parent row is deleted.) -/
def removeRow (st : Store) (node_id : String) : Store :=
  { nodes := st.nodes.filter (fun r => r.id != node_id),
    edges := st.edges.filter (fun e => e.1 != node_id && e.2 != node_id) }

/-- `nodes.rs` `delete_node`, fuel-indexed: fetch the ids of the direct
children (before any deletion), recursively delete each child's subtree,
then delete the node's own row (with its edge cascade).  The fuel bounds the
recursion depth; `st.nodes.length + 1` always suffices on an acyclic store,
while on a store with a `parent_id` cycle the real code would recurse
forever (modelled as running out of fuel). -/
def deleteRec : Nat → Store → String → Except AppError Store
  | 0, _, _ => .error (.Internal "recursion depth exhausted")
  | fuel + 1, st, node_id =>
    let childIds := (st.nodes.filter (fun r => r.parent_id == some node_id)).map (·.id)
    (childIds.foldlM (fun acc c => deleteRec fuel acc c) st).map
      (fun st' => removeRow st' node_id)

/-- `nodes.rs` `delete_node`: the recursion with enough fuel for any acyclic
store.  Deleting a nonexistent id is *not* rejected: the `DELETE` simply
affects zero rows and the call returns `Ok(())`. -/
def delete_node (st : Store) (node_id : String) : Except AppError Unit × Store :=
  match deleteRec (st.nodes.length + 1) st node_id with
  | .ok st' => (.ok (), st')
  | .error e => (.error e, st)

/-- `connection.rs` `with_transaction`: run `op` on a transaction view of the
store; commit its final state if `op` succeeds, otherwise roll back to the
entry state and surface the `rusqlite` error as `DatabaseQueryFailed`. -/
def with_transaction {α : Type} (st : Store)
    (op : Store → Except String (α × Store)) : Except AppError α × Store :=
  match op st with
  | .ok (a, txEnd) => (.ok a, txEnd)
  | .error e => (.error (.DatabaseQueryFailed e), st)

/-- A transaction body as the sequence of SQL statements it executes, each
reading and writing the transaction's view of the store.  Statement `k+1`
runs only if statement `k` succeeded; the first failure aborts the body with
that statement's error. -/
def runStatements : List (Store → Except String Store) → Store →
    Except String (Unit × Store)
  | [], st => .ok ((), st)
  | f :: rest, st =>
    match f st with
    | .ok st' => runStatements rest st'
    | .error e => .error e

/-- The capture scan of the regex `\[\[(.*?)\]\]` from one candidate start:
consume characters until the first `]]` (non-greedy), failing if a newline
intervenes (`.` does not match `\n`) or the input ends first.  Returns the
captured text (reversed accumulator) and the remainder after `]]`. -/
def scanClose : List Char → List Char → Option (List Char × List Char)
  | _, [] => none
  | acc, c :: rest =>
    if c = ']' ∧ rest.head? = some ']' then some (acc.reverse, rest.tail)
    else if c = '\n' then none
    else scanClose (c :: acc) rest

/-- `captures_iter` of `Regex::new(r"\[\[(.*?)\]\]")`, fuel-indexed: at each
position, a match starts on `[[` and captures non-greedily up to the first
`]]` (with no intervening newline, since `.` excludes `\n`); on failure the
engine advances one character.  Matches do not overlap: scanning resumes
after a consumed match.  Fuel `cs.length` suffices, as every recursive call
strictly shortens the list. -/
def extractGo : Nat → List Char → List String
  | 0, _ => []
  | _ + 1, [] => []
  | fuel + 1, c :: cs =>
    if c = '[' ∧ cs.head? = some '[' then
      match scanClose [] cs.tail with
      | some (cap, rest') => String.mk cap :: extractGo fuel rest'
      | none => extractGo fuel cs
    else extractGo fuel cs

/-- The reference texts between `[[` and `]]` in a node's content, in order
of occurrence (with multiplicity, as the Rust code collects them). -/
def extractLinks (content : String) : List String :=
  extractGo content.data.length content.data

/-- The target-resolution query of `update_links_for_node`:
`SELECT id FROM nodes WHERE content = ? OR content LIKE ? LIMIT 1` with the
pattern `format!("{}%", link_text)`.  `LIMIT 1` without `ORDER BY` returns
the first row *in table order* satisfying either disjunct — the single `OR`
query gives exact matches no precedence over prefix matches, whatever the
adjacent comment intends. -/
def resolveRef (nodes : List Row) (text : String) : Option String :=
  (nodes.find? (fun r => r.content == text || sqlLike (text ++ "%") r.content)).map (·.id)

/-- `INSERT OR IGNORE INTO node_links (source_node_id, target_node_id)`:
a duplicate of the `(source, target)` primary key is ignored; otherwise the
medium checks both FOREIGN KEYs into `nodes(id)` and appends the edge. -/
def insertEdgeIgnore (st : Store) (e : String × String) : Except String Store :=
  if e ∈ st.edges then .ok st
  else if (findRowById st.nodes e.1).isSome && (findRowById st.nodes e.2).isSome then
    .ok { st with edges := st.edges ++ [e] }
  else .error "FOREIGN KEY constraint failed"

/-- `link_service.rs` `update_links_for_node`, run through `with_transaction`:
extract the `[[...]]` reference texts from the *passed* node's content,
delete every stored edge whose source is the node, then for each text in
order resolve it against the `nodes` table and, if a row is found,
insert-or-ignore an edge to it; texts that resolve to no row are skipped
silently (`query_row`'s error is swallowed by the `if let Ok(...)`). -/
def update_links_for_node (st : Store) (source_id : String) (content : String) :
    Except AppError Unit × Store :=
  with_transaction st (fun tx =>
    let texts := extractLinks content
    let tx1 : Store := { tx with edges := tx.edges.filter (fun e => e.1 != source_id) }
    (texts.foldlM (fun (acc : Store) text =>
        match resolveRef acc.nodes text with
        | some target => insertEdgeIgnore acc (source_id, target)
        | none => .ok acc) tx1).map
      (fun txEnd => ((), txEnd)))

/-- `link_service.rs` `get_linked_references` (backlinks): the source nodes of
edges targeting `node_id`, hydrated without children. -/
def get_linked_references (st : Store) (node_id : String) : List Node :=
  (st.edges.filter (fun e => e.2 == node_id)).filterMap
    (fun e => (findRowById st.nodes e.1).map (fun r => r.toNode []))

/-! ## Ancestry

`Anc st d x` holds when `x` lies on the parent chain of `d` (including
`d` itself), i.e. `d` belongs to the subtree rooted at `x`.  The derivation
carries the rows it walks, so it is meaningful on any store. -/

inductive Anc (st : Store) : String → String → Prop
  | refl (x : String) : Anc st x x
  | step {d p y : String} (r : Row) (hr : r ∈ st.nodes) (hid : r.id = d)
      (hp : r.parent_id = some p) (h : Anc st p y) : Anc st d y

/-- The parent chain of `x` as stored: follow `parent_id` upward, `fuel`
steps at most. -/
def chainIds (st : Store) : Nat → String → List String
  | 0, x => [x]
  | fuel + 1, x =>
    x :: (match (findRowById st.nodes x).bind (·.parent_id) with
          | some p => chainIds st fuel p
          | none => [])

/-- Computable subtree membership: `d` is in the subtree of `x` when `x`
appears on `d`'s parent chain (`st.nodes.length` steps always suffice on an
acyclic store). -/
def inSubtree (st : Store) (x d : String) : Bool :=
  x ∈ chainIds st st.nodes.length d

/-- Acyclicity evidence: a rank that strictly increases from parent to
child.  A forest (the shape move-free stores always have) admits one —
e.g. each node's depth. -/
def Ranked (st : Store) (rank : String → Nat) : Prop :=
  ∀ r ∈ st.nodes, ∀ p, r.parent_id = some p → rank p < rank r.id

/-! ## Concrete stores used by counterexamples and witnesses -/

/-- A row literal with the repository's defaults for the fields the examples
do not vary. -/
def mkRow (i c : String) (p : Option String) (o : Int) (ca : Int) : Row :=
  { id := i, content := c, parent_id := p, order := o, properties := [],
    tags := [], created_at := ca, updated_at := ca,
    created_by := "default_user", version := 1 }

/-- The empty database. -/
def emptyStore : Store := { nodes := [], edges := [] }

/-- A parent `P` with one child (hence descendant) `D`. -/
def cycStore : Store :=
  { nodes := [mkRow "P" "parent" none 0 1, mkRow "D" "desc" (some "P") 0 2],
    edges := [] }

/-- Two rows whose contents share the prefix `Tar`: `n1` (earlier in table
order) has content `"Tar extra"`, `n2` has content exactly `"Tar"`. -/
def tarStore : Store :=
  { nodes := [mkRow "n1" "Tar extra" none 0 1, mkRow "n2" "Tar" none 0 2],
    edges := [] }

/-- One node `a`, version 1, `updated_at` 10. -/
def oneStore : Store := { nodes := [mkRow "a" "hello" none 0 10], edges := [] }

/-- The all-absent `UpdateNodeRequest`. -/
def emptyReq : UpdateNodeRequest :=
  { content := none, parent_id := none, order := none, properties := none,
    tags := none }

/-- Roots `R1`, `R2` with equal `order` but `created_at` 9 and 3 (table order
`R1` first), and children `K1`, `K2` of `R1` in the same arrangement. -/
def c9Store : Store :=
  { nodes := [mkRow "R1" "r one" none 0 9, mkRow "R2" "r two" none 0 3,
              mkRow "K1" "k one" (some "R1") 0 9,
              mkRow "K2" "k two" (some "R1") 0 3],
    edges := [] }

/-- A three-level chain `X → c → g` beside an outsider `z`, with edges
incident to the subtree of `X` and one outsider-to-outsider edge. -/
def delStore : Store :=
  { nodes := [mkRow "X" "top" none 0 1, mkRow "c" "mid" (some "X") 0 2,
              mkRow "g" "leaf" (some "c") 0 3, mkRow "z" "other" none 1 4],
    edges := [("z", "g"), ("c", "z"), ("z", "z")] }

/-- A statement that records a marker row, then one that fails: used to
witness that a transaction whose later statement fails leaves no trace of
its earlier writes. -/
def markStatement (st : Store) : Except String Store :=
  .ok { st with nodes := st.nodes ++ [mkRow "marker" "m" none 0 0] }

/-- A statement that always fails. -/
def failStatement (_ : Store) : Except String Store :=
  .error "UNIQUE constraint failed: nodes.id"

/-! ## Basic lemmas about the embedded primitives -/

theorem findRowById_eq_none_iff {nodes : List Row} {i : String} :
    findRowById nodes i = none ↔ ∀ r ∈ nodes, r.id ≠ i := by
  simp [findRowById, List.find?_eq_none]

theorem findRowById_mem_nodup {nodes : List Row} {r : Row}
    (hnodup : (nodes.map (·.id)).Nodup) (hr : r ∈ nodes) :
    findRowById nodes r.id = some r := by
  induction nodes with
  | nil => cases hr
  | cons x xs ih =>
    rcases List.mem_cons.mp hr with rfl | hr'
    · simp [findRowById]
    · have hx : ¬ x.id = r.id := by
        intro he
        exact (List.nodup_cons.mp hnodup).1
          (by simpa [he] using List.mem_map_of_mem (fun y => y.id) hr')
      have := ih (List.nodup_cons.mp hnodup).2 hr'
      simpa [findRowById, List.find?_cons, hx] using this

theorem mem_of_findRowById {nodes : List Row} {i : String} {r : Row}
    (h : findRowById nodes i = some r) : r ∈ nodes ∧ r.id = i := by
  refine ⟨List.mem_of_find?_eq_some h, ?_⟩
  have := List.find?_some h
  simpa using this

theorem findRowById_map_upd {nodes : List Row} {i : String} {f : Row → Row}
    (hf : ∀ x, (f x).id = x.id) :
    findRowById (nodes.map (fun r => if r.id == i then f r else r)) i =
      (findRowById nodes i).map f := by
  induction nodes with
  | nil => rfl
  | cons x xs ih =>
    by_cases hx : x.id = i
    · simp [findRowById, List.find?_cons, hx, hf]
    · simpa [findRowById, List.find?_cons, hx, hf] using ih

theorem findRowById_updRow_self (s : Store) (i : String) (f : Row → Row)
    (hf : ∀ x, (f x).id = x.id) :
    findRowById (updRow s i f).nodes i = (findRowById s.nodes i).map f := by
  have : (updRow s i f).nodes = s.nodes.map (fun r => if r.id == i then f r else r) := rfl
  rw [this, findRowById_map_upd hf]

theorem updRow_nodes (st : Store) (i : String) (f : Row → Row) :
    (updRow st i f).nodes = st.nodes.map (fun r => if r.id == i then f r else r) :=
  rfl

theorem updRow_edges (st : Store) (i : String) (f : Row → Row) :
    (updRow st i f).edges = st.edges := rfl

theorem scanClose_length {acc cs cap rest} (h : scanClose acc cs = some (cap, rest)) :
    rest.length < cs.length := by
  induction cs generalizing acc with
  | nil => simp [scanClose] at h
  | cons c cs ih =>
    rw [scanClose] at h
    split_ifs at h with h1 h2
    · simp only [Option.some.injEq, Prod.mk.injEq] at h
      obtain ⟨-, h2⟩ := h
      subst h2
      simp only [List.length_cons]
      exact Nat.lt_succ_of_le (List.length_tail _ ▸ Nat.sub_le _ _)
    · exact Nat.lt_succ_of_lt (ih h)

/-! ## C6 — transaction atomicity -/

/-- C6: `with_transaction` commits the body's final state exactly when the
body succeeds; when any statement of the body fails, the store after the
call equals the store before it, so no partial subset of the body's writes
is ever visible. -/
theorem C6_transaction_atomicity (stmts : List (Store → Except String Store))
    (st : Store) :
    (∀ stEnd, runStatements stmts st = .ok ((), stEnd) →
        with_transaction st (runStatements stmts) = (.ok (), stEnd)) ∧
    (∀ e, runStatements stmts st = .error e →
        with_transaction st (runStatements stmts) =
          (.error (.DatabaseQueryFailed e), st)) := by
  constructor
  · intro stEnd h
    simp [with_transaction, h]
  · intro e h
    simp [with_transaction, h]

/-- Witness for C6: a body whose first statement writes a marker row and
whose second fails rolls back to the empty store, although the marker write
had succeeded inside the transaction. -/
theorem C6_witness :
    runStatements [markStatement, failStatement] emptyStore =
      .error "UNIQUE constraint failed: nodes.id" ∧
    with_transaction emptyStore (runStatements [markStatement, failStatement]) =
      (.error (.DatabaseQueryFailed "UNIQUE constraint failed: nodes.id"),
        emptyStore) ∧
    markStatement emptyStore =
      .ok { nodes := [mkRow "marker" "m" none 0 0], edges := [] } ∧
    ({ nodes := [mkRow "marker" "m" none 0 0], edges := [] } : Store) ≠ emptyStore :=
  ⟨rfl, (C6_transaction_atomicity [markStatement, failStatement] emptyStore).2 _ rfl,
    rfl, by decide⟩

/-! ## C8 — exact-match precedence in link resolution -/

/-- C8 (failing input): in `tarStore`, node `n2`'s content equals the
reference text `"Tar"` exactly, yet resolution returns `n1`, whose content
`"Tar extra"` merely starts with `"Tar"` but sits earlier in table order:
the single `content = ? OR content LIKE ? LIMIT 1` query gives exact matches
no precedence over prefix matches, contradicting the code's own comment
("First try exact match, then try with wildcard").  Consequently a full
resynchronization of a node referencing `[[Tar]]` stores an edge to `n1`. -/
theorem C8_resolution_ignores_exact_match :
    resolveRef tarStore.nodes "Tar" = some "n1" ∧
    mkRow "n2" "Tar" none 0 2 ∈ tarStore.nodes ∧
    (mkRow "n2" "Tar" none 0 2).content = "Tar" ∧
    (update_links_for_node tarStore "src" "see [[Tar]]").2.edges ≠ [("src", "n2")] := by
  refine ⟨rfl, by decide, rfl, ?_⟩
  decide

/-! ## C5 — behaviour on a nonexistent id -/

/-- C5 (counterexample): on the empty store, `get_node "missing"` fails with
`DatabaseQueryFailed` — which is not the repository's not-found kind — and
`delete_node "missing"` does not fail at all: it returns success and deletes
nothing. -/
theorem C5_counterexample :
    get_node emptyStore "missing" =
      .error (.DatabaseQueryFailed
        "no rows returned by a query that expected to return at least one row") ∧
    (AppError.DatabaseQueryFailed
        "no rows returned by a query that expected to return at least one row").isNotFoundKind
      = false ∧
    delete_node emptyStore "missing" = (.ok (), emptyStore) :=
  ⟨rfl, rfl, rfl⟩

/-! ## C1 — moving a node under its own descendant -/

/-- C1 (counterexample): `D` is a descendant of `P` in `cycStore`, yet
`move_node "P" (some "D")` does not fail: it succeeds, rewrites `P`'s
`parent_id` to `D` (creating a cycle) and bumps `updated_at`/`version`, and
the store is changed by the call — no `CyclicMoveError` kind even exists in
`app_error.rs`. -/
theorem C1_counterexample :
    inSubtree cycStore "P" "D" = true ∧
    (move_node cycStore "P" (some "D") 7 99).1 = .ok
      { id := "P", content := "parent", parent_id := some "D",
        children := ["D"], order := 7, properties := [], tags := [],
        created_at := 1, updated_at := 99, created_by := "default_user",
        version := 2 } ∧
    (move_node cycStore "P" (some "D") 7 99).2 ≠ cycStore := by
  refine ⟨rfl, rfl, by decide⟩

/-! ## C4 — version/timestamp behaviour of `update_node` -/

/-- C4 (counterexample): updating node `a` (version 1, `updated_at` 10) with
the empty partial request at time 50 succeeds but leaves both `version` and
`updated_at` unchanged, and does not touch the store: the per-field update
block and the `version = version + 1` statement run only when at least one
field is present. -/
theorem C4_counterexample :
    update_node oneStore "a" emptyReq 50 =
      (.ok { id := "a", content := "hello", parent_id := none, children := [],
             order := 0, properties := [], tags := [], created_at := 10,
             updated_at := 10, created_by := "default_user", version := 1 },
       oneStore) := rfl

theorem applyContent_find (s : Store) (i : String) (now : Int) (q : Row)
    (o : Option String) (h : findRowById s.nodes i = some q) :
    findRowById (applyContent s i now o).nodes i =
      some (o.elim q (fun c => { q with content := c, updated_at := now })) := by
  cases o with
  | none => simpa [applyContent] using h
  | some c =>
      simp only [applyContent, Option.elim]
      rw [findRowById_updRow_self s i
        (fun x => { x with content := c, updated_at := now }) (fun x => rfl), h]
      rfl

theorem applyParent_find (s : Store) (i : String) (now : Int) (q : Row)
    (o : Option String) (h : findRowById s.nodes i = some q) :
    findRowById (applyParent s i now o).nodes i =
      some (o.elim q (fun p => { q with parent_id := some p, updated_at := now })) := by
  cases o with
  | none => simpa [applyParent] using h
  | some p =>
      simp only [applyParent, Option.elim]
      rw [findRowById_updRow_self s i
        (fun x => { x with parent_id := some p, updated_at := now }) (fun x => rfl), h]
      rfl

theorem applyOrder_find (s : Store) (i : String) (now : Int) (q : Row)
    (o : Option Int) (h : findRowById s.nodes i = some q) :
    findRowById (applyOrder s i now o).nodes i =
      some (o.elim q (fun v => { q with order := v, updated_at := now })) := by
  cases o with
  | none => simpa [applyOrder] using h
  | some v =>
      simp only [applyOrder, Option.elim]
      rw [findRowById_updRow_self s i
        (fun x => { x with order := v, updated_at := now }) (fun x => rfl), h]
      rfl

theorem applyProps_find (s : Store) (i : String) (now : Int) (q : Row)
    (o : Option (List (String × JsonVal))) (h : findRowById s.nodes i = some q) :
    findRowById (applyProps s i now o).nodes i =
      some (o.elim q (fun ps => { q with properties := ps, updated_at := now })) := by
  cases o with
  | none => simpa [applyProps] using h
  | some ps =>
      simp only [applyProps, Option.elim]
      rw [findRowById_updRow_self s i
        (fun x => { x with properties := ps, updated_at := now }) (fun x => rfl), h]
      rfl

theorem applyTags_find (s : Store) (i : String) (now : Int) (q : Row)
    (o : Option (List String)) (h : findRowById s.nodes i = some q) :
    findRowById (applyTags s i now o).nodes i =
      some (o.elim q (fun ts => { q with tags := ts, updated_at := now })) := by
  cases o with
  | none => simpa [applyTags] using h
  | some ts =>
      simp only [applyTags, Option.elim]
      rw [findRowById_updRow_self s i
        (fun x => { x with tags := ts, updated_at := now }) (fun x => rfl), h]
      rfl

/-- C4 (amended): a successful update that carries at least one field
increments the node's version by exactly 1 and sets `updated_at` to the
supplied current time; the empty partial request, however, runs no UPDATE at
all — it returns the node re-read with `version` and `updated_at` (and the
whole store) unchanged. -/
theorem C4_update_version_semantics (st : Store) (node_id : String)
    (req : UpdateNodeRequest) (now : Int) (r : Row) (hr : r ∈ st.nodes)
    (hid : r.id = node_id) (hnodup : (st.nodes.map (·.id)).Nodup)
    (hpar : ∀ p, req.parent_id = some p → (findRowById st.nodes p).isSome) :
    (req.hasField = true →
      (update_node st node_id req now).1.toOption.map
        (fun n => (n.version, n.updated_at)) = some (r.version + 1, now)) ∧
    (req.hasField = false →
      update_node st node_id req now =
        (.ok (r.toNode (childIdsOrdered st.nodes node_id)), st)) := by
  have hfind : findRowById st.nodes node_id = some r := by
    rw [← hid]; exact findRowById_mem_nodup hnodup hr
  have hfk : fkViolation st.nodes node_id req.parent_id = false := by
    cases hnp : req.parent_id with
    | none => rfl
    | some p =>
        obtain ⟨q, hq⟩ := Option.isSome_iff_exists.mp (hpar p hnp)
        simp [fkViolation, hfind, hq]
  constructor
  · intro hhf
    have h1 := applyContent_find st node_id now r req.content hfind
    have h2 := applyParent_find _ node_id now _ req.parent_id h1
    have h3 := applyOrder_find _ node_id now _ req.order h2
    have h4 := applyProps_find _ node_id now _ req.properties h3
    have h5 := applyTags_find _ node_id now _ req.tags h4
    have h6 := findRowById_updRow_self
      (applyTags (applyProps (applyOrder (applyParent (applyContent st node_id
        now req.content) node_id now req.parent_id) node_id now req.order)
        node_id now req.properties) node_id now req.tags)
      node_id (fun x => { x with version := x.version + 1 }) (fun x => rfl)
    rw [h5] at h6
    simp only [update_node, hhf, if_true, hfk, Bool.false_eq_true, if_false,
      get_node, h6, Option.map_some]
    simp only [Except.toOption, Option.map_some, Option.some.injEq,
      Row.toNode, Prod.mk.injEq]
    obtain ⟨c, p, o, ps, ts⟩ := req
    simp only [UpdateNodeRequest.hasField] at hhf
    cases c <;> cases p <;> cases o <;> cases ps <;> cases ts <;>
      simp_all [Option.elim]
  · intro hhf
    simp only [update_node, hhf, Bool.false_eq_true, if_false, get_node, hfind]

/-- Witness for C4 (amended): a content-only update of node `a` in
`oneStore` at time 50 yields version 2 and `updated_at` 50; and (the
`hasField = false` case being exercised by `C4_counterexample`) the same
instantiation of the theorem also covers the empty request. -/
theorem C4_witness :
    (({ content := some "new", parent_id := none, order := none,
        properties := none, tags := none } : UpdateNodeRequest).hasField = true →
      (update_node oneStore "a"
          { content := some "new", parent_id := none, order := none,
            properties := none, tags := none } 50).1.toOption.map
        (fun n => (n.version, n.updated_at)) =
        some ((mkRow "a" "hello" none 0 10).version + 1, 50)) ∧
    (({ content := some "new", parent_id := none, order := none,
        properties := none, tags := none } : UpdateNodeRequest).hasField = false →
      update_node oneStore "a"
          { content := some "new", parent_id := none, order := none,
            properties := none, tags := none } 50 =
        (.ok ((mkRow "a" "hello" none 0 10).toNode
          (childIdsOrdered oneStore.nodes "a")), oneStore)) :=
  C4_update_version_semantics oneStore "a"
    { content := some "new", parent_id := none, order := none,
      properties := none, tags := none } 50
    (mkRow "a" "hello" none 0 10) (by decide) rfl (by decide)
    (fun p hp => by cases hp)

/-! ## C9 — ordering of children and roots -/

/-- C9 (counterexample): in `c9Store` the roots `R1`, `R2` and the children
`K1`, `K2` of `R1` have equal `order` keys, with `created_at` 9 before 3 in
table order.  Both queries return table order (`R1` before `R2`, `K1` before
`K2`), not the claimed `created_at` tie-break, which would demand `R2` first
and `K2` first: the SQL orders by `order_index` alone. -/
theorem C9_counterexample :
    (get_root_nodes c9Store).map (fun n => (n.id, n.order, n.created_at)) =
      [("R1", 0, 9), ("R2", 0, 3)] ∧
    (get_node c9Store "R1").toOption.map (·.children) = some ["K1", "K2"] := by
  refine ⟨by decide, by decide⟩

/-! ## C1 amended — `move_node` rewrites unconditionally -/

/-- C1 (amended): `move_node` performs no cycle validation: for every
existing node — in particular one whose proposed new parent is its own
descendant — the call succeeds whenever the new parent id exists,
unconditionally rewriting `parent_id` and `order` and bumping `updated_at`
and `version`; no `CyclicMoveError` is ever returned (no such kind exists). -/
theorem C1_move_rewrites_unconditionally (st : Store) (node_id : String)
    (new_parent_id : Option String) (new_order now : Int) (r : Row)
    (hr : r ∈ st.nodes) (hid : r.id = node_id)
    (hnodup : (st.nodes.map (·.id)).Nodup)
    (hpar : ∀ p, new_parent_id = some p → (findRowById st.nodes p).isSome) :
    ∃ n : Node, (move_node st node_id new_parent_id new_order now).1 = .ok n ∧
      n.id = node_id ∧ n.parent_id = new_parent_id ∧ n.order = new_order ∧
      n.updated_at = now ∧ n.version = r.version + 1 := by
  have hfind : findRowById st.nodes node_id = some r := by
    rw [← hid]; exact findRowById_mem_nodup hnodup hr
  have hfk : fkViolation st.nodes node_id new_parent_id = false := by
    cases hnp : new_parent_id with
    | none => rfl
    | some p =>
        obtain ⟨q, hq⟩ := Option.isSome_iff_exists.mp (hpar p hnp)
        simp [fkViolation, hfind, hq]
  have hfr : findRowById (updRow st node_id (fun x =>
      { x with parent_id := new_parent_id, order := new_order,
               updated_at := now, version := x.version + 1 })).nodes node_id =
      some ({ r with
                parent_id := new_parent_id, order := new_order,
                updated_at := now, version := r.version + 1 }) := by
    rw [updRow_nodes,
      @findRowById_map_upd st.nodes node_id
        (fun x => { x with parent_id := new_parent_id, order := new_order,
                           updated_at := now, version := x.version + 1 })
        (fun x => rfl),
      hfind]
    rfl
  refine ⟨({ r with
              parent_id := new_parent_id, order := new_order,
              updated_at := now, version := r.version + 1 } : Row).toNode
      (childIdsOrdered (updRow st node_id (fun x =>
        { x with parent_id := new_parent_id, order := new_order,
                 updated_at := now, version := x.version + 1 })).nodes node_id),
    ?_, hid, rfl, rfl, rfl, rfl⟩
  simp only [move_node, hfk, Bool.false_eq_true, if_false]
  simp [get_node, hfr]

/-- Witness for C1 (amended), at the concrete parent/descendant store. -/
theorem C1_witness :
    ∃ n : Node, (move_node cycStore "P" (some "D") 7 99).1 = .ok n ∧
      n.id = "P" ∧ n.parent_id = some "D" ∧ n.order = 7 ∧
      n.updated_at = 99 ∧ n.version = (mkRow "P" "parent" none 0 1).version + 1 :=
  C1_move_rewrites_unconditionally cycStore "P" (some "D") 7 99
    (mkRow "P" "parent" none 0 1) (by decide) rfl (by decide)
    (fun p hp => by injection hp with h; subst h; decide)

/-! ## C5 amended — nonexistent ids -/

/-- C5 (amended): for an id with no row, `get_node` fails, but with the
lower-level `DatabaseQueryFailed` kind (the repository has no dedicated
not-found kind for nodes), and `delete_node` does not fail at all: it finds
no children, deletes zero rows, and returns success with the store intact. -/
theorem C5_missing_id_behaviour (st : Store) (i : String)
    (hmiss : findRowById st.nodes i = none)
    (hclosed : ∀ r ∈ st.nodes, ∀ p, r.parent_id = some p → p ∈ ids st)
    (hedges : ∀ e ∈ st.edges, e.1 ∈ ids st ∧ e.2 ∈ ids st) :
    get_node st i =
      .error (.DatabaseQueryFailed
        "no rows returned by a query that expected to return at least one row") ∧
    delete_node st i = (.ok (), st) := by
  have hni : i ∉ ids st := by
    intro hmem
    obtain ⟨r, hr, hre⟩ := List.mem_map.mp hmem
    exact (findRowById_eq_none_iff.mp hmiss r hr) hre
  constructor
  · simp [get_node, hmiss]
  · have hch : st.nodes.filter (fun r => r.parent_id == some i) = [] := by
      rw [List.filter_eq_nil_iff]
      intro r hr
      simp only [beq_iff_eq]
      intro hp
      exact hni (hclosed r hr i hp)
    have hrm : removeRow st i = st := by
      have h1 : st.nodes.filter (fun r => r.id != i) = st.nodes := by
        rw [List.filter_eq_self]
        intro r hr
        simp only [bne_iff_ne, ne_eq]
        intro hri
        exact hni (hri ▸ List.mem_map_of_mem _ hr)
      have h2 : st.edges.filter (fun e => e.1 != i && e.2 != i) = st.edges := by
        rw [List.filter_eq_self]
        intro e he
        have := hedges e he
        simp only [Bool.and_eq_true, bne_iff_ne, ne_eq]
        constructor
        · intro h; exact hni (h ▸ this.1)
        · intro h; exact hni (h ▸ this.2)
      simp [removeRow, h1, h2]
    have hdel : deleteRec (st.nodes.length + 1) st i = .ok st := by
      simp [deleteRec, hch, hrm, Except.map, pure, Except.pure]
    simp [delete_node, hdel]

/-- Witness for C5 (amended): the empty store satisfies the hypotheses. -/
theorem C5_witness :
    get_node emptyStore "x" =
      .error (.DatabaseQueryFailed
        "no rows returned by a query that expected to return at least one row") ∧
    delete_node emptyStore "x" = (.ok (), emptyStore) :=
  C5_missing_id_behaviour emptyStore "x" rfl (by intro r hr; cases hr)
    (by intro e he; cases he)

/-! ## C9 amended — ordering is by `order` alone -/

/-- C9 (amended): the children list returned by `get` and the roots returned
by `list_roots` are each a permutation of the respective row set arranged in
nondecreasing `order`; equal-`order` rows stay in table (insertion) order —
the queries order by `order_index` alone, with no `created_at` tie-break. -/
theorem C9_order_only (st : Store) (node_id : String) (n : Node)
    (h : get_node st node_id = .ok n) :
    (∃ rows : List Row,
        rows.Perm (st.nodes.filter (fun r => r.parent_id == some node_id)) ∧
        (rows.map (·.order)).Sorted (· ≤ ·) ∧ n.children = rows.map (·.id)) ∧
    (∃ roots : List Row,
        roots.Perm (st.nodes.filter (fun r => r.parent_id == none)) ∧
        (roots.map (·.order)).Sorted (· ≤ ·) ∧
        (get_root_nodes st).map (·.id) = roots.map (·.id)) := by
  constructor
  · refine ⟨sortByOrder (st.nodes.filter (fun r => r.parent_id == some node_id)),
      List.perm_insertionSort _ _, ?_, ?_⟩
    · exact List.pairwise_map.mpr (List.sorted_insertionSort _ _)
    · cases hf : findRowById st.nodes node_id with
      | none => rw [get_node, hf] at h; cases h
      | some r =>
          rw [get_node, hf] at h
          cases h
          rfl
  · refine ⟨sortByOrder (st.nodes.filter (fun r => r.parent_id == none)),
      List.perm_insertionSort _ _, ?_, ?_⟩
    · exact List.pairwise_map.mpr (List.sorted_insertionSort _ _)
    · simp [get_root_nodes, Row.toNode]

/-- Witness for C9 (amended), at `c9Store` and node `R1`. -/
theorem C9_witness :
    (∃ rows : List Row,
        rows.Perm (c9Store.nodes.filter (fun r => r.parent_id == some "R1")) ∧
        (rows.map (·.order)).Sorted (· ≤ ·) ∧
        ({ id := "R1", content := "r one", parent_id := none,
           children := ["K1", "K2"], order := 0, properties := [], tags := [],
           created_at := 9, updated_at := 9, created_by := "default_user",
           version := 1 } : Node).children = rows.map (·.id)) ∧
    (∃ roots : List Row,
        roots.Perm (c9Store.nodes.filter (fun r => r.parent_id == none)) ∧
        (roots.map (·.order)).Sorted (· ≤ ·) ∧
        (get_root_nodes c9Store).map (·.id) = roots.map (·.id)) :=
  C9_order_only c9Store "R1" _ rfl

/-! ## C10 — partial update can never clear a parent -/

theorem parentPreserved_refl (s : Store) : ParentPreserved s s :=
  fun r' hr' hp => ⟨r', hr', rfl, hp⟩

theorem parentPreserved_trans {a b c : Store} (h1 : ParentPreserved a b)
    (h2 : ParentPreserved b c) : ParentPreserved a c := by
  intro r' hr' hp
  obtain ⟨q, hq, hqid, hqp⟩ := h2 r' hr' hp
  obtain ⟨r, hr, hrid, hrp⟩ := h1 q hq hqp
  exact ⟨r, hr, hrid.trans hqid, hrp⟩

theorem parentPreserved_updRow (s : Store) (i : String) (f : Row → Row)
    (hfid : ∀ x, (f x).id = x.id)
    (hfp : ∀ x, (f x).parent_id = x.parent_id ∨ ∃ p, (f x).parent_id = some p) :
    ParentPreserved s (updRow s i f) := by
  intro r' hr' hp
  obtain ⟨r, hr, he⟩ := List.mem_map.mp hr'
  by_cases hid : r.id == i
  · rw [if_pos hid] at he
    rcases hfp r with hsame | ⟨p, hps⟩
    · exact ⟨r, hr, by rw [← he, hfid], by rw [← hsame, he, hp]⟩
    · rw [← he, hps] at hp
      cases hp
  · rw [if_neg hid] at he
    exact ⟨r, hr, he ▸ rfl, he ▸ hp⟩

/-- C10: the partial update cannot clear a node's parent — any row that is
parentless after `update_node` was already parentless before, for every
store and every request (absence of the request's `parent_id` means "leave
unchanged", and a present one always writes `some`); turning a child back
into a root is instead possible through `move_node`, whose `new_parent_id`
accepts `None` and writes it. -/
theorem C10_update_cannot_clear_parent (st : Store) (node_id : String)
    (req : UpdateNodeRequest) (new_order now : Int) :
    ParentPreserved st (update_node st node_id req now).2 ∧
    (∀ r' ∈ (move_node st node_id none new_order now).2.nodes,
        r'.id = node_id → r'.parent_id = none) := by
  constructor
  · have h1 : ParentPreserved st (applyContent st node_id now req.content) := by
      cases req.content with
      | none => exact parentPreserved_refl _
      | some c =>
          simp only [applyContent]
          exact parentPreserved_updRow _ _ _ (fun x => rfl) (fun x => Or.inl rfl)
    have h2 : ∀ s, ParentPreserved s (applyParent s node_id now req.parent_id) := by
      intro s
      cases req.parent_id with
      | none => exact parentPreserved_refl _
      | some p =>
          simp only [applyParent]
          exact parentPreserved_updRow _ _ _ (fun x => rfl) (fun x => Or.inr ⟨p, rfl⟩)
    have h3 : ∀ s, ParentPreserved s (applyOrder s node_id now req.order) := by
      intro s
      cases req.order with
      | none => exact parentPreserved_refl _
      | some o =>
          simp only [applyOrder]
          exact parentPreserved_updRow _ _ _ (fun x => rfl) (fun x => Or.inl rfl)
    have h4 : ∀ s, ParentPreserved s (applyProps s node_id now req.properties) := by
      intro s
      cases req.properties with
      | none => exact parentPreserved_refl _
      | some ps =>
          simp only [applyProps]
          exact parentPreserved_updRow _ _ _ (fun x => rfl) (fun x => Or.inl rfl)
    have h5 : ∀ s, ParentPreserved s (applyTags s node_id now req.tags) := by
      intro s
      cases req.tags with
      | none => exact parentPreserved_refl _
      | some ts =>
          simp only [applyTags]
          exact parentPreserved_updRow _ _ _ (fun x => rfl) (fun x => Or.inl rfl)
    cases hf : req.hasField with
    | false =>
        simp only [update_node, hf, Bool.false_eq_true, if_false]
        exact parentPreserved_refl st
    | true =>
        cases hfk : fkViolation st.nodes node_id req.parent_id with
        | true =>
            simp only [update_node, hf, if_true, hfk]
            exact parentPreserved_refl st
        | false =>
            simp only [update_node, hf, if_true, hfk, Bool.false_eq_true, if_false]
            exact parentPreserved_trans
              (parentPreserved_trans
                (parentPreserved_trans
                  (parentPreserved_trans (parentPreserved_trans h1 (h2 _)) (h3 _))
                  (h4 _))
                (h5 _))
              (parentPreserved_updRow _ _ _ (fun x => rfl) (fun x => Or.inl rfl))
  · intro r' hr' hid
    have hfk : fkViolation st.nodes node_id none = false := rfl
    simp only [move_node, hfk, Bool.false_eq_true, if_false] at hr'
    obtain ⟨r, hr, he⟩ := List.mem_map.mp hr'
    by_cases hri : r.id == node_id
    · rw [if_pos hri] at he
      rw [← he]
    · rw [if_neg hri] at he
      rw [← he] at hid
      exact absurd (beq_iff_eq.mpr hid) hri

/-! ## C7 — idempotent daily note -/

/-- Matching a literal (non-`%`) pattern character against the same text
character consumes both. -/
theorem likeGo_cons_self (f : Nat) (a : Char) (p t : List Char)
    (ha : ¬ a = '%') :
    likeGo (f + 1) (a :: p) (a :: t) = likeGo f p t := by
  by_cases hu : a = '_' <;> simp [likeGo, ha, hu]

theorem likeGo_append_pct : ∀ (s : List Char) (fuel : Nat),
    2 * s.length + 2 ≤ fuel → likeGo fuel (s ++ ['%']) s = true := by
  intro s
  induction s with
  | nil =>
      intro fuel hf
      obtain ⟨f, rfl⟩ : ∃ f, fuel = f + 1 + 1 := ⟨fuel - 2, by omega⟩
      simp [likeGo]
  | cons a s' ih =>
      intro fuel hf
      simp only [List.length_cons] at hf
      obtain ⟨f, rfl⟩ : ∃ f, fuel = f + 1 + 1 := ⟨fuel - 2, by omega⟩
      by_cases ha : a = '%'
      · subst ha
        have h1 : likeGo f (s' ++ ['%']) s' = true := ih f (by omega)
        simp [likeGo, h1]
      · have h1 : likeGo (f + 1) (s' ++ ['%']) s' = true := ih (f + 1) (by omega)
        simp only [List.cons_append]
        rw [likeGo_cons_self (f + 1) a (s' ++ ['%']) s' ha]
        exact h1

/-- A stored content equal to `s` always satisfies `content LIKE s || "%"`:
the daily-note lookup pattern matches the content that the creation path
writes, whatever characters (`%`, `_`, letters of any case) `s` contains. -/
theorem sqlLike_append_pct_self (s : String) : sqlLike (s ++ "%") s = true := by
  have hpct : lowerChar '%' = '%' := by decide
  have hmap : ((s ++ "%").data).map lowerChar = s.data.map lowerChar ++ ['%'] := by
    rw [String.data_append, List.map_append]
    simp [hpct]
  rw [sqlLike, hmap]
  refine likeGo_append_pct (s.data.map lowerChar) _ ?_
  have h1 : s.length = s.data.length := rfl
  have h2 : (s ++ "%").length = s.length + 1 := by
    rw [String.length_append]
    rfl
  rw [h2]
  simp only [List.length_map]
  omega

/-- C7: under a single writer, two successive `get_or_create_daily_note`
calls for the same date return the same node id; the first call creates the
note only when no matching row exists (adding exactly one row), and the
second call finds it and creates nothing. -/
theorem C7_daily_note_idempotent (st : Store) (date fresh1 fresh2 : String)
    (now1 now2 : Int) (hfresh : findRowById st.nodes fresh1 = none) :
    ∃ (n1 n2 : Node) (st1 : Store),
      get_or_create_daily_note st date fresh1 now1 = (.ok n1, st1) ∧
      get_or_create_daily_note st1 date fresh2 now2 = (.ok n2, st1) ∧
      n1.id = n2.id ∧
      (st1 = st ∨ st1.nodes.length = st.nodes.length + 1) := by
  cases hfind0 : st.nodes.find? (fun r => sqlLike (dailyTitle date ++ "%") r.content) with
  | some r =>
      have hrmem : r ∈ st.nodes := List.mem_of_find?_eq_some hfind0
      cases hg : findRowById st.nodes r.id with
      | none =>
          exfalso
          exact (findRowById_eq_none_iff.mp hg r hrmem) rfl
      | some q =>
          refine ⟨q.toNode (childIdsOrdered st.nodes r.id),
            q.toNode (childIdsOrdered st.nodes r.id), st, ?_, ?_, rfl, Or.inl rfl⟩
          · simp [get_or_create_daily_note, hfind0, get_node, hg]
          · simp [get_or_create_daily_note, hfind0, get_node, hg]
  | none =>
      have hfind1 : findRowById (st.nodes ++
          [newRowOf (dailyNoteRequest date) fresh1 now1]) fresh1 =
          some (newRowOf (dailyNoteRequest date) fresh1 now1) := by
        simp only [findRowById, List.find?_append]
        rw [show st.nodes.find? (fun r => r.id == fresh1) = none from hfresh]
        simp [newRowOf]
      have hcreate : create_node st (dailyNoteRequest date) fresh1 now1 =
          (.ok ((newRowOf (dailyNoteRequest date) fresh1 now1).toNode
            (childIdsOrdered (st.nodes ++
              [newRowOf (dailyNoteRequest date) fresh1 now1]) fresh1)),
           { st with nodes := st.nodes ++
              [newRowOf (dailyNoteRequest date) fresh1 now1] }) := by
        have hcond : (match (dailyNoteRequest date).parent_id with
            | some p => (findRowById st.nodes p).isNone
            | none => false) = false := rfl
        simp only [create_node, hfresh, Option.isSome_none, Bool.false_eq_true,
          if_false, hcond]
        simp only [get_node, hfind1]
      have hlike1 : (st.nodes ++
          [newRowOf (dailyNoteRequest date) fresh1 now1]).find?
          (fun r => sqlLike (dailyTitle date ++ "%") r.content) =
          some (newRowOf (dailyNoteRequest date) fresh1 now1) := by
        rw [List.find?_append, hfind0, Option.none_or]
        have : (newRowOf (dailyNoteRequest date) fresh1 now1).content =
            dailyTitle date := rfl
        simp [List.find?_cons, this, sqlLike_append_pct_self]
      refine ⟨(newRowOf (dailyNoteRequest date) fresh1 now1).toNode
          (childIdsOrdered (st.nodes ++
            [newRowOf (dailyNoteRequest date) fresh1 now1]) fresh1),
        (newRowOf (dailyNoteRequest date) fresh1 now1).toNode
          (childIdsOrdered (st.nodes ++
            [newRowOf (dailyNoteRequest date) fresh1 now1]) fresh1),
        { st with nodes := st.nodes ++
            [newRowOf (dailyNoteRequest date) fresh1 now1] },
        ?_, ?_, rfl, Or.inr (by simp)⟩
      · simp only [get_or_create_daily_note, hfind0]
        exact hcreate
      · simp only [get_or_create_daily_note, hlike1]
        have hnid : (newRowOf (dailyNoteRequest date) fresh1 now1).id = fresh1 := rfl
        rw [hnid]
        simp only [get_node, hfind1]

/-- Witness for C7 at a store with no daily note for 2024-01-15. -/
theorem C7_witness :
    ∃ (n1 n2 : Node) (st1 : Store),
      get_or_create_daily_note tarStore "2024-01-15" "f1" 10 = (.ok n1, st1) ∧
      get_or_create_daily_note st1 "2024-01-15" "f2" 20 = (.ok n2, st1) ∧
      n1.id = n2.id ∧
      (st1 = tarStore ∨ st1.nodes.length = tarStore.nodes.length + 1) :=
  C7_daily_note_idempotent tarStore "2024-01-15" "f1" "f2" 10 20 rfl

/-! ## C3 — resynchronization replaces the source's outgoing edges -/

theorem resolveRef_target_exists {nodes : List Row} {t tid : String}
    (h : resolveRef nodes t = some tid) : (findRowById nodes tid).isSome := by
  obtain ⟨r, hr, hrid⟩ : ∃ r, nodes.find?
      (fun x => x.content == t || sqlLike (t ++ "%") x.content) = some r ∧
      r.id = tid := by
    cases hf : nodes.find? (fun x => x.content == t || sqlLike (t ++ "%") x.content) with
    | none => simp [resolveRef, hf] at h
    | some r =>
        refine ⟨r, rfl, ?_⟩
        simpa [resolveRef, hf] using h
  have hmem : r ∈ nodes := List.mem_of_find?_eq_some hr
  simp only [findRowById, List.find?_isSome]
  exact ⟨r, hmem, by simp [hrid]⟩

theorem except_ok_bind {ε α β : Type} (a : α) (k : α → Except ε β) :
    (Except.ok a >>= k : Except ε β) = k a := rfl

theorem resync_fold (st : Store) (source_id : String)
    (hs : (findRowById st.nodes source_id).isSome) :
    ∀ (texts : List String) (acc : Store) (processed : List String),
    acc.nodes = st.nodes →
    (∀ t, (source_id, t) ∈ acc.edges ↔
      ∃ x ∈ processed, resolveRef st.nodes x = some t) →
    (∀ e : String × String, e.1 ≠ source_id → (e ∈ acc.edges ↔ e ∈ st.edges)) →
    (acc.edges.filter (fun e => e.1 == source_id)).Nodup →
    ∃ stEnd, (texts.foldlM (fun (acc : Store) text =>
        match resolveRef acc.nodes text with
        | some target => insertEdgeIgnore acc (source_id, target)
        | none => .ok acc) acc) = .ok stEnd ∧
      stEnd.nodes = st.nodes ∧
      (∀ t, (source_id, t) ∈ stEnd.edges ↔
        ∃ x, (x ∈ processed ∨ x ∈ texts) ∧ resolveRef st.nodes x = some t) ∧
      (∀ e : String × String, e.1 ≠ source_id → (e ∈ stEnd.edges ↔ e ∈ st.edges)) ∧
      (stEnd.edges.filter (fun e => e.1 == source_id)).Nodup := by
  intro texts
  induction texts with
  | nil =>
      intro acc processed hn hiff hother hnd
      refine ⟨acc, rfl, hn, ?_, hother, hnd⟩
      intro t
      simpa using hiff t
  | cons t0 ts ih =>
      intro acc processed hn hiff hother hnd
      rw [List.foldlM_cons]
      have hres : resolveRef acc.nodes t0 = resolveRef st.nodes t0 := by rw [hn]
      cases hr0 : resolveRef st.nodes t0 with
      | none =>
          rw [hres, hr0]
          obtain ⟨stEnd, hfold, h1, h2, h3, h4⟩ :=
            ih acc (processed ++ [t0]) hn
              (by
                intro t
                rw [hiff t]
                constructor
                · rintro ⟨x, hx, hxr⟩
                  exact ⟨x, List.mem_append_left _ hx, hxr⟩
                · rintro ⟨x, hx, hxr⟩
                  rcases List.mem_append.mp hx with hx | hx
                  · exact ⟨x, hx, hxr⟩
                  · rw [List.mem_singleton.mp hx] at hxr
                    rw [hr0] at hxr
                    cases hxr)
              hother hnd
          refine ⟨stEnd, by exact hfold, h1, ?_, h3, h4⟩
          intro t
          rw [h2 t]
          constructor
          · rintro ⟨x, hx | hx, hxr⟩
            · rcases List.mem_append.mp hx with hx | hx
              · exact ⟨x, Or.inl hx, hxr⟩
              · exact ⟨x, Or.inr (List.mem_singleton.mp hx ▸ List.mem_cons_self _ _), hxr⟩
            · exact ⟨x, Or.inr (List.mem_cons_of_mem _ hx), hxr⟩
          · rintro ⟨x, hx | hx, hxr⟩
            · exact ⟨x, Or.inl (List.mem_append_left _ hx), hxr⟩
            · rcases List.mem_cons.mp hx with rfl | hx
              · exact ⟨x, Or.inl (List.mem_append_right _ (List.mem_singleton_self _)), hxr⟩
              · exact ⟨x, Or.inr hx, hxr⟩
      | some target =>
          rw [hres, hr0]
          by_cases hdup : (source_id, target) ∈ acc.edges
          · have hins : insertEdgeIgnore acc (source_id, target) = .ok acc := by
              simp [insertEdgeIgnore, hdup]
            obtain ⟨stEnd, hfold, h1, h2, h3, h4⟩ :=
              ih acc (processed ++ [t0]) hn
                (by
                  intro t
                  constructor
                  · intro hmem
                    obtain ⟨x, hx, hxr⟩ := (hiff t).mp hmem
                    exact ⟨x, List.mem_append_left _ hx, hxr⟩
                  · rintro ⟨x, hx, hxr⟩
                    rcases List.mem_append.mp hx with hx | hx
                    · exact (hiff t).mpr ⟨x, hx, hxr⟩
                    · rw [List.mem_singleton.mp hx] at hxr
                      rw [hr0] at hxr
                      cases hxr
                      exact hdup)
                hother hnd
            refine ⟨stEnd, by simp only [hins, except_ok_bind]; exact hfold, h1, ?_, h3, h4⟩
            intro t
            rw [h2 t]
            constructor
            · rintro ⟨x, hx | hx, hxr⟩
              · rcases List.mem_append.mp hx with hx | hx
                · exact ⟨x, Or.inl hx, hxr⟩
                · exact ⟨x, Or.inr (List.mem_singleton.mp hx ▸ List.mem_cons_self _ _), hxr⟩
              · exact ⟨x, Or.inr (List.mem_cons_of_mem _ hx), hxr⟩
            · rintro ⟨x, hx | hx, hxr⟩
              · exact ⟨x, Or.inl (List.mem_append_left _ hx), hxr⟩
              · rcases List.mem_cons.mp hx with rfl | hx
                · exact ⟨x, Or.inl (List.mem_append_right _ (List.mem_singleton_self _)), hxr⟩
                · exact ⟨x, Or.inr hx, hxr⟩
          · have hsrc : (findRowById acc.nodes source_id).isSome := by
              rw [hn]; exact hs
            have htgt : (findRowById acc.nodes target).isSome := by
              rw [hn]; exact resolveRef_target_exists hr0
            have hins : insertEdgeIgnore acc (source_id, target) =
                .ok { acc with edges := acc.edges ++ [(source_id, target)] } := by
              simp [insertEdgeIgnore, hdup, hsrc, htgt]
            obtain ⟨stEnd, hfold, h1, h2, h3, h4⟩ :=
              ih { acc with edges := acc.edges ++ [(source_id, target)] }
                (processed ++ [t0]) hn
                (by
                  intro t
                  simp only [List.mem_append, List.mem_singleton, Prod.mk.injEq,
                    true_and]
                  constructor
                  · rintro (hmem | rfl)
                    · obtain ⟨x, hx, hxr⟩ := (hiff t).mp hmem
                      exact ⟨x, Or.inl hx, hxr⟩
                    · exact ⟨t0, Or.inr rfl, hr0⟩
                  · rintro ⟨x, hx | rfl, hxr⟩
                    · exact Or.inl ((hiff t).mpr ⟨x, hx, hxr⟩)
                    · rw [hr0] at hxr
                      cases hxr
                      exact Or.inr rfl)
                (by
                  intro e he
                  simp only [List.mem_append, List.mem_singleton]
                  rw [hother e he]
                  constructor
                  · rintro (hmem | rfl)
                    · exact hmem
                    · exact absurd rfl he
                  · exact Or.inl)
                (by
                  rw [List.filter_append]
                  have : ([(source_id, target)].filter
                      (fun e => e.1 == source_id)) = [(source_id, target)] := by
                    simp
                  rw [this, List.nodup_append]
                  refine ⟨hnd, List.nodup_singleton _, ?_⟩
                  intro e hef he2
                  rw [List.mem_singleton.mp he2] at hef
                  exact hdup (List.mem_of_mem_filter hef))
            refine ⟨stEnd, by simp only [hins, except_ok_bind]; exact hfold, h1, ?_, h3, h4⟩
            intro t
            rw [h2 t]
            constructor
            · rintro ⟨x, hx | hx, hxr⟩
              · rcases List.mem_append.mp hx with hx | hx
                · exact ⟨x, Or.inl hx, hxr⟩
                · exact ⟨x, Or.inr (List.mem_singleton.mp hx ▸ List.mem_cons_self _ _), hxr⟩
              · exact ⟨x, Or.inr (List.mem_cons_of_mem _ hx), hxr⟩
            · rintro ⟨x, hx | hx, hxr⟩
              · exact ⟨x, Or.inl (List.mem_append_left _ hx), hxr⟩
              · rcases List.mem_cons.mp hx with rfl | hx
                · exact ⟨x, Or.inl (List.mem_append_right _ (List.mem_singleton_self _)), hxr⟩
                · exact ⟨x, Or.inr hx, hxr⟩

/-- C3: after `update_links_for_node`, the edges with the node as source are
exactly one edge per target resolved from the reference texts extracted from
the *passed* content — stored edges that no longer correspond to a resolved
reference are gone (replace, not append), duplicate reference texts (and
distinct texts resolving to the same target) collapse to a single edge,
texts that resolve to no node contribute nothing, edges of other sources are
untouched, and the call succeeds with no error. -/
theorem C3_resync_replaces (st : Store) (source_id content : String)
    (hs : (findRowById st.nodes source_id).isSome) :
    ∃ st', update_links_for_node st source_id content = (.ok (), st') ∧
      st'.nodes = st.nodes ∧
      (∀ t, (source_id, t) ∈ st'.edges ↔
        ∃ x ∈ extractLinks content, resolveRef st.nodes x = some t) ∧
      (∀ e : String × String, e.1 ≠ source_id → (e ∈ st'.edges ↔ e ∈ st.edges)) ∧
      (st'.edges.filter (fun e => e.1 == source_id)).Nodup := by
  obtain ⟨stEnd, hfold, h1, h2, h3, h4⟩ :=
    resync_fold st source_id hs (extractLinks content)
      { st with edges := st.edges.filter (fun e => e.1 != source_id) } []
      rfl
      (by
        intro t
        constructor
        · intro hmem
          have hpred := (List.mem_filter.mp hmem).2
          simp at hpred
        · rintro ⟨x, hx, -⟩
          cases hx)
      (by
        intro e he
        simp only [List.mem_filter, bne_iff_ne, ne_eq]
        constructor
        · exact fun h => h.1
        · exact fun h => ⟨h, by simpa using he⟩)
      (by
        rw [List.filter_filter]
        have : st.edges.filter (fun e => e.1 == source_id && e.1 != source_id) = [] := by
          rw [List.filter_eq_nil_iff]
          intro e he
          simp
        rw [this]
        exact List.nodup_nil)
  refine ⟨stEnd, ?_, h1, ?_, h3, h4⟩
  · simp only [update_links_for_node, with_transaction, hfold, Except.map]
  · intro t
    rw [h2 t]
    constructor
    · rintro ⟨x, hx | hx, hxr⟩
      · cases hx
      · exact ⟨x, hx, hxr⟩
    · rintro ⟨x, hx, hxr⟩
      exact ⟨x, Or.inr hx, hxr⟩

/-- Witness for C3: resynchronizing `n2` in `tarStore` with content
mentioning `[[Tar]]` twice and an unresolvable `[[zzz]]`. -/
theorem C3_witness :
    ∃ st', update_links_for_node tarStore "n2" "see [[Tar]] [[Tar]] [[zzz]]" =
        (.ok (), st') ∧
      st'.nodes = tarStore.nodes ∧
      (∀ t, ("n2", t) ∈ st'.edges ↔
        ∃ x ∈ extractLinks "see [[Tar]] [[Tar]] [[zzz]]",
          resolveRef tarStore.nodes x = some t) ∧
      (∀ e : String × String, e.1 ≠ "n2" → (e ∈ st'.edges ↔ e ∈ tarStore.edges)) ∧
      (st'.edges.filter (fun e => e.1 == "n2")).Nodup :=
  C3_resync_replaces tarStore "n2" "see [[Tar]] [[Tar]] [[zzz]]" (by decide)

/-! ## C2 — cascade deletion: ancestry toolbox -/

theorem rows_eq_of_id {st : Store} {r1 r2 : Row} (hnodup : (ids st).Nodup)
    (h1 : r1 ∈ st.nodes) (h2 : r2 ∈ st.nodes) (hid : r1.id = r2.id) :
    r1 = r2 := by
  have e1 : findRowById st.nodes r1.id = some r1 := findRowById_mem_nodup hnodup h1
  have e2 : findRowById st.nodes r2.id = some r2 := findRowById_mem_nodup hnodup h2
  rw [hid, e2] at e1
  exact (Option.some.inj e1).symm

theorem Anc.trans {st : Store} {a b c : String} (h1 : Anc st a b)
    (h2 : Anc st b c) : Anc st a c := by
  induction h1 with
  | refl => exact h2
  | step r hr hid hp _ ih => exact Anc.step r hr hid hp (ih h2)

theorem Anc.mono {st st' : Store} (hsub : ∀ r ∈ st'.nodes, r ∈ st.nodes)
    {d x : String} (h : Anc st' d x) : Anc st d x := by
  induction h with
  | refl => exact Anc.refl _
  | step r hr hid hp _ ih => exact Anc.step r (hsub r hr) hid hp ih

theorem Anc.rank_le {st : Store} {rank : String → Nat} (hrank : Ranked st rank)
    {a b : String} (h : Anc st a b) : rank b ≤ rank a := by
  induction h with
  | refl => exact le_rfl
  | step r hr hid hp _ ih =>
      have h1 := hrank r hr _ hp
      rw [← hid]
      omega

/-- Every subtree membership is the root itself or goes through a direct
child of the root. -/
theorem Anc.decomp {st : Store} {d x : String} (h : Anc st d x) :
    d = x ∨ ∃ rc : Row, rc ∈ st.nodes ∧ rc.parent_id = some x ∧ Anc st d rc.id := by
  induction h with
  | refl => exact Or.inl rfl
  | step r hr hid hp h ih =>
      rcases ih with rfl | ⟨rc, hrc, hrcp, hanc⟩
      · exact Or.inr ⟨r, hr, hp, hid ▸ Anc.refl _⟩
      · exact Or.inr ⟨rc, hrc, hrcp, Anc.step r hr hid hp hanc⟩

theorem chain_to_anc {st : Store} : ∀ (f : Nat) (d x : String),
    x ∈ chainIds st f d → Anc st d x := by
  intro f
  induction f with
  | zero =>
      intro d x hx
      rw [List.mem_singleton.mp hx]
      exact Anc.refl _
  | succ f ih =>
      intro d x hx
      rw [chainIds] at hx
      rcases List.mem_cons.mp hx with rfl | hx
      · exact Anc.refl _
      · cases hp : (findRowById st.nodes d).bind (·.parent_id) with
        | none => rw [hp] at hx; cases hx
        | some p =>
            rw [hp] at hx
            obtain ⟨r, hfr, hrp⟩ := Option.bind_eq_some.mp hp
            have hrmem := mem_of_findRowById hfr
            exact Anc.step r hrmem.1 hrmem.2 hrp (ih p x hx)

theorem anc_to_chain {st : Store} {rank : String → Nat}
    (hnodup : (ids st).Nodup) (hrank : Ranked st rank) :
    ∀ {d x : String}, Anc st d x → ∀ f, rank d ≤ f → x ∈ chainIds st f d := by
  intro d x h
  induction h with
  | refl =>
      intro f _
      cases f with
      | zero => exact List.mem_singleton_self _
      | succ f => exact List.mem_cons_self _ _
  | step r hr hid hp h ih =>
      intro f hf
      rw [← hid] at hf ⊢
      have hlt := hrank r hr _ hp
      obtain ⟨f', rfl⟩ : ∃ f', f = f' + 1 := ⟨f - 1, by omega⟩
      rw [chainIds, findRowById_mem_nodup hnodup hr]
      simp only [Option.some_bind, hp]
      exact List.mem_cons_of_mem _ (ih f' (by omega))

/-- Under well-formedness, the computable `inSubtree` coincides with the
inductive subtree relation `Anc`. -/
theorem inSubtree_iff_anc {st : Store} {rank : String → Nat}
    (hnodup : (ids st).Nodup) (hrank : Ranked st rank)
    (hbound : ∀ y, rank y ≤ st.nodes.length) (x d : String) :
    inSubtree st x d = true ↔ Anc st d x := by
  rw [inSubtree, decide_eq_true_eq]
  constructor
  · exact chain_to_anc _ _ _
  · intro h
    exact anc_to_chain hnodup hrank h _ (hbound d)

theorem length_filter_add_length_filter_not {α : Type} (l : List α)
    (p : α → Bool) :
    (l.filter p).length + (l.filter (fun a => !(p a))).length = l.length := by
  induction l with
  | nil => rfl
  | cons a l ih =>
      cases h : p a <;> simp [List.filter_cons, h] <;> omega

theorem countP_mono_of_imp {α : Type} {l : List α} {p q : α → Bool}
    (himp : ∀ x ∈ l, p x = true → q x = true) :
    l.countP p ≤ l.countP q := by
  induction l with
  | nil => exact le_rfl
  | cons c l ih =>
      have hc := himp c (List.mem_cons_self _ _)
      have hrest := ih (fun x hx => himp x (List.mem_cons_of_mem _ hx))
      cases hp : p c
      · cases hq : q c <;> simp [List.countP_cons, hp, hq] <;> omega
      · have := hc hp
        simp [List.countP_cons, hp, this]
        omega

theorem countP_lt_of_mem {α : Type} {l : List α} {a : α} (ha : a ∈ l)
    {p q : α → Bool} (himp : ∀ x ∈ l, p x = true → q x = true)
    (hpa : p a = false) (hqa : q a = true) :
    l.countP p < l.countP q := by
  induction l with
  | nil => cases ha
  | cons b l ih =>
      rcases List.mem_cons.mp ha with rfl | ha'
      · have hle := countP_mono_of_imp
          (fun x hx => himp x (List.mem_cons_of_mem _ hx))
        simp [List.countP_cons, hpa, hqa]
        omega
      · have hb := himp b (List.mem_cons_self _ _)
        have := ih ha' (fun x hx => himp x (List.mem_cons_of_mem _ hx))
        cases hp : p b
        · cases hq : q b <;> simp [List.countP_cons, hp, hq] <;> omega
        · have := hb hp
          simp [List.countP_cons, hp, this]
          omega

/-- Restricting a subtree-membership derivation to a filtered store: every
member of `c`'s subtree in `st` is either already removed (in `Racc`) or its
whole chain down to `c` survives in `acc`. -/
theorem anc_restrict {st acc : Store} {Racc processed : List String}
    (haccn : acc.nodes = st.nodes.filter (fun r => !(decide (r.id ∈ Racc))))
    (hsound : ∀ x ∈ Racc, ∃ cj, cj ∈ processed ∧ Anc st x cj)
    (hcomp : ∀ cj ∈ processed, ∀ d, Anc st d cj → d ∈ Racc) :
    ∀ {c d : String}, Anc st d c → d ∈ Racc ∨ Anc acc d c := by
  intro c d hd
  induction hd with
  | refl => exact Or.inr (Anc.refl _)
  | step r' hr' hid' hp' h' ihd =>
      rcases ihd with hin | hacc2
      · obtain ⟨cj, hcjproc, hanc⟩ := hsound _ hin
        exact Or.inl (hcomp cj hcjproc _ (Anc.step r' hr' hid' hp' hanc))
      · by_cases hdR : r'.id ∈ Racc
        · exact Or.inl (hid' ▸ hdR)
        · refine Or.inr (Anc.step r' ?_ hid' hp' hacc2)
          rw [haccn]
          exact List.mem_filter.mpr ⟨hr', by simp [hdR]⟩

/-- Master lemma for `delete_node`: with enough fuel, the recursion succeeds
and the store after it is the store before with exactly the rows of the
target's subtree (the removal set `R`) filtered out, together with every
edge incident to a removed row.  Soundness: everything removed is in the
subtree; completeness: the whole subtree is removed. -/
theorem deleteRec_spec (rank : String → Nat) :
    ∀ (fuel : Nat) (st : Store) (node_id : String),
    (ids st).Nodup → Ranked st rank → node_id ∈ ids st →
    st.nodes.countP (fun r => rank node_id ≤ rank r.id) < fuel →
    ∃ (st' : Store) (R : List String),
      deleteRec fuel st node_id = .ok st' ∧
      st'.nodes = st.nodes.filter (fun r => !(decide (r.id ∈ R))) ∧
      st'.edges = st.edges.filter
        (fun e => !(decide (e.1 ∈ R)) && !(decide (e.2 ∈ R))) ∧
      (∀ x ∈ R, Anc st x node_id) ∧
      (∀ d, Anc st d node_id → d ∈ R) := by
  intro fuel
  induction fuel with
  | zero =>
      intro st node_id _ _ _ hm
      omega
  | succ f ih =>
      intro st node_id hnodup hrank hidmem hm
      obtain ⟨rX, hrXmem, hrXid⟩ := List.mem_map.mp hidmem
      have fold_spec : ∀ (remaining : List String) (acc : Store)
          (Racc processed : List String),
          (∀ c, (c ∈ processed ∨ c ∈ remaining) →
            ∃ rc, rc ∈ st.nodes ∧ rc.id = c ∧ rc.parent_id = some node_id) →
          (∀ c ∈ remaining, c ∉ processed) →
          remaining.Nodup →
          acc.nodes = st.nodes.filter (fun r => !(decide (r.id ∈ Racc))) →
          acc.edges = st.edges.filter
            (fun e => !(decide (e.1 ∈ Racc)) && !(decide (e.2 ∈ Racc))) →
          (∀ x ∈ Racc, ∃ cj, cj ∈ processed ∧ Anc st x cj) →
          (∀ cj ∈ processed, ∀ d, Anc st d cj → d ∈ Racc) →
          ∃ (stL : Store) (RL : List String),
            (remaining.foldlM (fun acc c => deleteRec f acc c) acc) = .ok stL ∧
            stL.nodes = st.nodes.filter (fun r => !(decide (r.id ∈ RL))) ∧
            stL.edges = st.edges.filter
              (fun e => !(decide (e.1 ∈ RL)) && !(decide (e.2 ∈ RL))) ∧
            (∀ x ∈ RL, ∃ cj, (cj ∈ processed ∨ cj ∈ remaining) ∧ Anc st x cj) ∧
            (∀ cj, (cj ∈ processed ∨ cj ∈ remaining) →
              ∀ d, Anc st d cj → d ∈ RL) := by
        intro remaining
        induction remaining with
        | nil =>
            intro acc Racc processed hchild hdisj hrn haccn hacce hsound hcomp
            refine ⟨acc, Racc, rfl, haccn, hacce, ?_, ?_⟩
            · intro x hx
              obtain ⟨cj, hcj, ha⟩ := hsound x hx
              exact ⟨cj, Or.inl hcj, ha⟩
            · rintro cj (hcj | hcj) d hd
              · exact hcomp cj hcj d hd
              · cases hcj
        | cons c rest ihr =>
            intro acc Racc processed hchild hdisj hrn haccn hacce hsound hcomp
            obtain ⟨rc, hrcmem, hrcid, hrcp⟩ :=
              hchild c (Or.inr (List.mem_cons_self _ _))
            have hrankc : rank node_id < rank c := by
              have := hrank rc hrcmem _ hrcp
              rw [hrcid] at this
              exact this
            have hcnot : c ∉ Racc := by
              intro hcin
              obtain ⟨cj, hcjproc, hanc⟩ := hsound c hcin
              obtain ⟨rcj, hrcjmem, hrcjid, hrcjp⟩ := hchild cj (Or.inl hcjproc)
              cases hanc with
              | refl => exact hdisj c (List.mem_cons_self _ _) hcjproc
              | step r' hr' hid' hp' h' =>
                  have hreq : r' = rc :=
                    rows_eq_of_id hnodup hr' hrcmem (by rw [hid', hrcid])
                  rw [hreq, hrcp] at hp'
                  rw [← Option.some.inj hp'] at h'
                  have hle : rank cj ≤ rank node_id := h'.rank_le hrank
                  have hgt : rank node_id < rank cj := by
                    have := hrank rcj hrcjmem _ hrcjp
                    rw [hrcjid] at this
                    exact this
                  omega
            have hrcacc : rc ∈ acc.nodes := by
              rw [haccn]
              refine List.mem_filter.mpr ⟨hrcmem, ?_⟩
              simp [hrcid, hcnot]
            have haccsub : ∀ r ∈ acc.nodes, r ∈ st.nodes := by
              intro r hr
              rw [haccn] at hr
              exact (List.mem_filter.mp hr).1
            have haccnodup : (ids acc).Nodup := by
              have hsub : (acc.nodes.map (fun r => r.id)).Sublist
                  (st.nodes.map (fun r => r.id)) := by
                rw [haccn]
                exact (List.filter_sublist _).map _
              exact hsub.nodup hnodup
            have haccrank : Ranked acc rank :=
              fun r hr p hp => hrank r (haccsub r hr) p hp
            have hcacc : c ∈ ids acc := by
              rw [← hrcid]
              exact List.mem_map_of_mem _ hrcacc
            have hmacc : acc.nodes.countP (fun r => rank c ≤ rank r.id) < f := by
              have e1 : acc.nodes.countP (fun r => rank c ≤ rank r.id) ≤
                  st.nodes.countP (fun r => rank c ≤ rank r.id) := by
                rw [haccn]
                exact (List.filter_sublist _).countP_le _
              have e2 : st.nodes.countP (fun r => rank c ≤ rank r.id) ≤
                  st.nodes.countP (fun r => decide (rank node_id < rank r.id)) := by
                refine countP_mono_of_imp ?_
                intro x _ hx
                simp only [decide_eq_true_eq] at hx ⊢
                omega
              have e3 : st.nodes.countP (fun r => decide (rank node_id < rank r.id)) <
                  st.nodes.countP (fun r => rank node_id ≤ rank r.id) := by
                refine countP_lt_of_mem hrXmem ?_ ?_ ?_
                · intro x _ hx
                  simp only [decide_eq_true_eq] at hx ⊢
                  omega
                · simp [hrXid]
                · simp [hrXid]
              omega
            obtain ⟨st'', R'', hdel, hn'', he'', hsound'', hcomp''⟩ :=
              ih acc c haccnodup haccrank hcacc hmacc
            have hnodes2 : st''.nodes =
                st.nodes.filter (fun r => !(decide (r.id ∈ Racc ++ R''))) := by
              rw [hn'', haccn, List.filter_filter]
              refine List.filter_congr ?_
              intro r _
              by_cases h1 : r.id ∈ Racc <;> by_cases h2 : r.id ∈ R'' <;>
                simp [h1, h2]
            have hedges2 : st''.edges = st.edges.filter
                (fun e => !(decide (e.1 ∈ Racc ++ R'')) &&
                  !(decide (e.2 ∈ Racc ++ R''))) := by
              rw [he'', hacce, List.filter_filter]
              refine List.filter_congr ?_
              intro e _
              by_cases h1 : e.1 ∈ Racc <;> by_cases h2 : e.1 ∈ R'' <;>
                by_cases h3 : e.2 ∈ Racc <;> by_cases h4 : e.2 ∈ R'' <;>
                  simp [h1, h2, h3, h4]
            have hdown : ∀ d, Anc st d c → d ∈ Racc ∨ Anc acc d c :=
              fun d hd => anc_restrict haccn hsound hcomp hd
            obtain ⟨stL, RL, hfoldrest, hLn, hLe, hLsound, hLcomp⟩ :=
              ihr st'' (Racc ++ R'') (processed ++ [c])
                (by
                  intro c' hc'
                  refine hchild c' ?_
                  rcases hc' with hc' | hc'
                  · rcases List.mem_append.mp hc' with hc' | hc'
                    · exact Or.inl hc'
                    · exact Or.inr (List.mem_singleton.mp hc' ▸
                        List.mem_cons_self _ _)
                  · exact Or.inr (List.mem_cons_of_mem _ hc'))
                (by
                  intro c' hc' hmem
                  rcases List.mem_append.mp hmem with hmem | hmem
                  · exact hdisj c' (List.mem_cons_of_mem _ hc') hmem
                  · rw [List.mem_singleton.mp hmem] at hc'
                    exact (List.nodup_cons.mp hrn).1 hc')
                (List.nodup_cons.mp hrn).2
                hnodes2 hedges2
                (by
                  intro x hx
                  rcases List.mem_append.mp hx with hx | hx
                  · obtain ⟨cj, hcj, ha⟩ := hsound x hx
                    exact ⟨cj, List.mem_append_left _ hcj, ha⟩
                  · exact ⟨c, List.mem_append_right _ (List.mem_singleton_self _),
                      Anc.mono haccsub (hsound'' x hx)⟩)
                (by
                  intro cj hcj d hd
                  rcases List.mem_append.mp hcj with hcj | hcj
                  · exact List.mem_append_left _ (hcomp cj hcj d hd)
                  · rw [List.mem_singleton.mp hcj] at hd
                    rcases hdown d hd with hin | hacc2
                    · exact List.mem_append_left _ hin
                    · exact List.mem_append_right _ (hcomp'' d hacc2))
            refine ⟨stL, RL, ?_, hLn, hLe, ?_, ?_⟩
            · rw [List.foldlM_cons]
              simp only [hdel, except_ok_bind]
              exact hfoldrest
            · intro x hx
              obtain ⟨cj, hcj, ha⟩ := hLsound x hx
              refine ⟨cj, ?_, ha⟩
              rcases hcj with hcj | hcj
              · rcases List.mem_append.mp hcj with hcj | hcj
                · exact Or.inl hcj
                · exact Or.inr (List.mem_singleton.mp hcj ▸ List.mem_cons_self _ _)
              · exact Or.inr (List.mem_cons_of_mem _ hcj)
            · intro cj hcj d hd
              refine hLcomp cj ?_ d hd
              rcases hcj with hcj | hcj
              · exact Or.inl (List.mem_append_left _ hcj)
              · rcases List.mem_cons.mp hcj with rfl | hcj
                · exact Or.inl (List.mem_append_right _ (List.mem_singleton_self _))
                · exact Or.inr hcj
      obtain ⟨stL, RL, hfold, hLn, hLe, hLsound, hLcomp⟩ :=
        fold_spec ((st.nodes.filter
            (fun r => r.parent_id == some node_id)).map (·.id)) st [] []
          (by
            rintro c (hc | hc)
            · cases hc
            · obtain ⟨rc, hrc, hrcid⟩ := List.mem_map.mp hc
              have hfc := List.mem_filter.mp hrc
              exact ⟨rc, hfc.1, hrcid, by simpa using hfc.2⟩)
          (by intro c _ hc; cases hc)
          (by
            have hsub : ((st.nodes.filter
                (fun r => r.parent_id == some node_id)).map (fun r => r.id)).Sublist
                (st.nodes.map (fun r => r.id)) := (List.filter_sublist _).map _
            exact hsub.nodup hnodup)
          (by simp)
          (by simp)
          (by rintro x hx; cases hx)
          (by rintro cj hcj; cases hcj)
      refine ⟨removeRow stL node_id, node_id :: RL, ?_, ?_, ?_, ?_, ?_⟩
      · simp only [deleteRec, hfold, Except.map]
      · have : (removeRow stL node_id).nodes =
            stL.nodes.filter (fun r => r.id != node_id) := rfl
        rw [this, hLn, List.filter_filter]
        refine List.filter_congr ?_
        intro r _
        by_cases h1 : r.id ∈ RL <;> by_cases h2 : r.id = node_id <;>
          simp [h1, h2]
      · have : (removeRow stL node_id).edges =
            stL.edges.filter (fun e => e.1 != node_id && e.2 != node_id) := rfl
        rw [this, hLe, List.filter_filter]
        refine List.filter_congr ?_
        intro e _
        by_cases h1 : e.1 ∈ RL <;> by_cases h2 : e.1 = node_id <;>
          by_cases h3 : e.2 ∈ RL <;> by_cases h4 : e.2 = node_id <;>
            simp [h1, h2, h3, h4]
      · intro x hx
        rcases List.mem_cons.mp hx with rfl | hx
        · exact Anc.refl _
        · obtain ⟨cj, hcj, ha⟩ := hLsound x hx
          rcases hcj with hcj | hcj
          · cases hcj
          · obtain ⟨rcj, hrcjmem, hrcjid⟩ := List.mem_map.mp hcj
            have hfc := List.mem_filter.mp hrcjmem
            refine ha.trans (Anc.step rcj hfc.1 hrcjid ?_ (Anc.refl _))
            simpa using hfc.2
      · intro d hd
        rcases hd.decomp with rfl | ⟨rc, hrc, hrcp, hto⟩
        · exact List.mem_cons_self _ _
        · refine List.mem_cons_of_mem _ (hLcomp rc.id (Or.inr ?_) d hto)
          exact List.mem_map_of_mem _ (List.mem_filter.mpr ⟨hrc, by simp [hrcp]⟩)

/-- C2 (counterexample): deleting `X` from `delStore` removes its subtree,
but fetching a deleted id afterwards fails with `DatabaseQueryFailed`, which
is not the repository's not-found kind — there is no `NotFound` for nodes. -/
theorem C2_counterexample :
    (delete_node delStore "X").1 = .ok () ∧
    get_node (delete_node delStore "X").2 "X" =
      .error (.DatabaseQueryFailed
        "no rows returned by a query that expected to return at least one row") ∧
    (AppError.DatabaseQueryFailed
        "no rows returned by a query that expected to return at least one row").isNotFoundKind
      = false :=
  ⟨rfl, rfl, rfl⟩

/-- C2 (amended): on a well-formed store (unique ids, acyclic parent
structure witnessed by a bounded rank), deleting a node `X` with `N`
descendants succeeds and removes exactly the `N + 1` rows of `X`'s subtree
— the remaining rows are precisely the rows outside the subtree, unchanged
and in order — and removes exactly the `LinkEdge`s with a deleted node as
source or target; afterwards `get` on any deleted id fails (with
`DatabaseQueryFailed`, the kind the node layer actually surfaces). -/
theorem C2_delete_cascade (st : Store) (X : String) (N : Nat)
    (rank : String → Nat) (hnodup : (ids st).Nodup) (hrank : Ranked st rank)
    (hbound : ∀ y, rank y ≤ st.nodes.length) (hX : X ∈ ids st)
    (hN : (st.nodes.filter (fun r => inSubtree st X r.id)).length = N + 1) :
    ∃ st' : Store, delete_node st X = (.ok (), st') ∧
      st'.nodes = st.nodes.filter (fun r => !(inSubtree st X r.id)) ∧
      st'.nodes.length + (N + 1) = st.nodes.length ∧
      st'.edges = st.edges.filter
        (fun e => !(inSubtree st X e.1) && !(inSubtree st X e.2)) ∧
      (∀ d, inSubtree st X d = true →
        get_node st' d = .error (.DatabaseQueryFailed
          "no rows returned by a query that expected to return at least one row")) := by
  have hmfuel : st.nodes.countP (fun r => rank X ≤ rank r.id) <
      st.nodes.length + 1 :=
    Nat.lt_succ_of_le (List.countP_le_length _)
  obtain ⟨st', R, hdel, hn, he, hsound, hcomp⟩ :=
    deleteRec_spec rank (st.nodes.length + 1) st X hnodup hrank hX hmfuel
  have hiff2 : ∀ d, inSubtree st X d = true ↔ d ∈ R := by
    intro d
    rw [inSubtree_iff_anc hnodup hrank hbound]
    exact ⟨fun h => hcomp d h, fun h => hsound d h⟩
  have hbool : ∀ d, decide (d ∈ R) = inSubtree st X d := by
    intro d
    by_cases h : d ∈ R
    · simp [h, (hiff2 d).mpr h]
    · have hfalse : inSubtree st X d = false := by
        cases hh : inSubtree st X d
        · rfl
        · exact absurd ((hiff2 d).mp hh) h
      simp [h, hfalse]
  have hnodes : st'.nodes = st.nodes.filter (fun r => !(inSubtree st X r.id)) := by
    rw [hn]
    refine List.filter_congr ?_
    intro r _
    rw [hbool r.id]
  have hedges : st'.edges = st.edges.filter
      (fun e => !(inSubtree st X e.1) && !(inSubtree st X e.2)) := by
    rw [he]
    refine List.filter_congr ?_
    intro e _
    rw [hbool e.1, hbool e.2]
  refine ⟨st', ?_, hnodes, ?_, hedges, ?_⟩
  · simp [delete_node, hdel]
  · have hsum := length_filter_add_length_filter_not st.nodes
      (fun r => inSubtree st X r.id)
    rw [hnodes]
    rw [hN] at hsum
    omega
  · intro d hd
    have hnone : findRowById st'.nodes d = none := by
      rw [findRowById_eq_none_iff]
      intro r hr hrd
      rw [hnodes] at hr
      have h2 := (List.mem_filter.mp hr).2
      rw [hrd, hd] at h2
      cases h2
    simp [get_node, hnone]

/-- Witness for C2 (amended): deleting `X` (two descendants `c`, `g`) from
`delStore`, with depth as the rank. -/
theorem C2_witness :
    ∃ st' : Store, delete_node delStore "X" = (.ok (), st') ∧
      st'.nodes = delStore.nodes.filter
        (fun r => !(inSubtree delStore "X" r.id)) ∧
      st'.nodes.length + (2 + 1) = delStore.nodes.length ∧
      st'.edges = delStore.edges.filter
        (fun e => !(inSubtree delStore "X" e.1) && !(inSubtree delStore "X" e.2)) ∧
      (∀ d, inSubtree delStore "X" d = true →
        get_node st' d = .error (.DatabaseQueryFailed
          "no rows returned by a query that expected to return at least one row")) :=
  C2_delete_cascade delStore "X" 2
    (fun s => if s = "c" then 2 else if s = "g" then 3 else 1)
    (by decide)
    (by
      intro r hr p hp
      fin_cases hr <;> simp only [mkRow] at hp <;> cases hp <;> decide)
    (by
      intro y
      dsimp only
      split_ifs <;> simp [delStore])
    (by decide)
    (by decide)

end NoteApp
